import Mathlib

/-!
Shallow embedding of `src/modified_tree_bitmap/hmap.c`, the intrusive open-chained
hash table (capacity management, resize, relocation fixups and the position-based
iterator), together with proofs of the specification's claims about it.

Modelling conventions:
* a machine address is a `Nat`; a node is identified by its address plus its
  stored `hash` field;
* a bucket chain (head pointer plus `next` links) is the Lean list of its nodes
  in chain order;
* `size_t` values are `Nat`s; the C program's bitwise operators are the `Nat`
  bitwise operators, and stores into the 32-bit cursor words of
  `hmap_at_position` are reduced `% 2^32`;
* the two functions of the missing header that this file needs
  (`hmap_insert_fast`, removal) are modelled from the spec, as marked on their
  doc comments; everything else is translated from `hmap.c`.
-/

/-- The value `SIZE_MAX` for the 64-bit `size_t` of the target platform (the source compiles
its `SIZE_MAX > UINT32_MAX` branch). -/
def SIZE_MAX : Nat := 2 ^ 64 - 1

/-- An intrusive `struct hmap_node`: `addr` models the node's memory address (its
identity), `hash` the stored hash field. The `next` pointers of a chain are
modelled by the order of a Lean list (`Bucket`). -/
structure Node where
  addr : Nat
  hash : Nat
deriving Repr, DecidableEq

/-- A bucket: the chain of nodes hanging off one bucket-head slot, listed in
chain order starting at the head. -/
abbrev Bucket := List Node

/-- The `buckets` pointer of a `struct hmap`: either `&hmap->one` of the table
whose address is `owner` (the inline single-bucket case), or a heap-allocated
array of bucket slots. -/
inductive BucketsRef where
  | inl (owner : Nat)
  | heap (arr : List Bucket)
deriving Repr, DecidableEq

/-- The `struct hmap`. `id` models the address of the struct itself (the referent of
`&hmap->one`); `one` is the inline slot. -/
structure Hmap where
  id : Nat
  buckets : BucketsRef
  one : Bucket
  mask : Nat
  n : Nat
deriving Repr, DecidableEq

/-- The array of bucket slots readable through the `buckets` pointer. Under the
inline-slot invariant a pointer `&hmap->one` dereferences to the table's own
`one` slot, giving a one-element array. -/
def arrOf (h : Hmap) : List Bucket :=
  match h.buckets with
  | .inl _ => [h.one]
  | .heap a => a

/-- Reading `hmap->buckets[i]` (an out-of-bounds read, undefined behaviour in C,
is modelled as the empty chain). -/
def getBucket (h : Hmap) (i : Nat) : Bucket := (arrOf h).getD i []

/-- Writing `hmap->buckets[i] = b`. Writing through the inline pointer stores
into `one`; an out-of-bounds write (undefined behaviour in C) is a no-op. -/
def setBucket (h : Hmap) (i : Nat) (b : Bucket) : Hmap :=
  match h.buckets with
  | .inl _ => if i = 0 then { h with one := b } else h
  | .heap a => { h with buckets := .heap (a.set i b) }

/-- Function `hmap_init`: empty table, `buckets = &hmap->one`, `one = NULL`, `mask = 0`,
`n = 0`. Parameterised by the address at which the struct lives. -/
def hmap_init (addr : Nat) : Hmap :=
  { id := addr, buckets := .inl addr, one := [], mask := 0, n := 0 }

/-- Function `hmap_moved`: if `mask == 0`, rebind `buckets` to the table's own inline
slot. -/
def hmap_moved (h : Hmap) : Hmap :=
  if h.mask = 0 then { h with buckets := .inl h.id } else h

/-- Function `hmap_swap`: struct assignment through a temporary (which exchanges every
field but leaves each struct at its own address), then `hmap_moved` on both. -/
def hmap_swap (a b : Hmap) : Hmap × Hmap :=
  let a2 := { b with id := a.id }
  let b2 := { a with id := b.id }
  (hmap_moved a2, hmap_moved b2)

/-- Function `hmap_clear`: if `n > 0`, zero `n` and `memset` the `mask + 1` slots of the
current bucket array to `NULL`. -/
def hmap_clear (h : Hmap) : Hmap :=
  if 0 < h.n then
    let h2 := match h.buckets with
      | .inl _ => { h with one := [] }
      | .heap _ => { h with buckets := .heap (List.replicate (h.mask + 1) []) }
    { h2 with n := 0 }
  else h

/-- Modelled from the spec: `hmap_insert_fast` is declared in the missing header
`hmap.h`; per §6 it threads the node onto the head of bucket `hash & mask`,
storing `hash` as the node's hash field and incrementing `n`, with no capacity
check and no duplicate check. -/
def hmap_insert_fast (h : Hmap) (node : Node) (hash : Nat) : Hmap :=
  let nd := { node with hash := hash }
  let i := hash &&& h.mask
  let h2 := setBucket h i (nd :: getBucket h i)
  { h2 with n := h2.n + 1 }

/-- Modelled from the spec: node removal is the external chain operation of the
missing header; per §§1–2 it unlinks the node from its bucket chain and
decrements `n`. Removing an absent node is a caller contract violation,
modelled as a no-op. -/
def hmap_remove (h : Hmap) (node : Node) : Hmap :=
  let i := node.hash &&& h.mask
  if node ∈ getBucket h i then
    let h2 := setBucket h i ((getBucket h i).erase node)
    { h2 with n := h2.n - 1 }
  else h

/-- Function `resize`: build a temporary table at `new_mask` (heap array of `new_mask+1`
null slots when `new_mask ≠ 0`, otherwise its own inline slot), migrate every
node of every current bucket into it with `hmap_insert_fast` at the node's
stored hash, then `hmap_swap` it into place. The stack temporary is given the
fresh address `h.id + 1`; the address is irrelevant to the result because the
swap ends with the `hmap_moved` fixup. `hmap_destroy (&tmp)` only frees memory
and has no model-state effect. -/
def resize (h : Hmap) (new_mask : Nat) : Hmap :=
  let tmp := hmap_init (h.id + 1)
  let tmp := if new_mask ≠ 0 then
      { tmp with buckets := .heap (List.replicate (new_mask + 1) []), mask := new_mask }
    else tmp
  let tmp := (List.range (h.mask + 1)).foldl
      (fun t i => (getBucket h i).foldl (fun t node => hmap_insert_fast t node node.hash) t)
      tmp
  (hmap_swap h tmp).1

/-- One `mask |= mask >> k` step of `calc_mask`'s cascading-OR bit spread. -/
def orShift (m k : Nat) : Nat := m ||| (m >>> k)

/-- Function `calc_mask`: `capacity/2`, the cascading-OR bit spread (with the 64-bit
`>> 32` step), then the minimum-four-buckets floor `mask |= (mask & 1) << 1`. -/
def calc_mask (capacity : Nat) : Nat :=
  let mask := capacity / 2
  let mask := orShift mask 1
  let mask := orShift mask 2
  let mask := orShift mask 4
  let mask := orShift mask 8
  let mask := orShift mask 16
  let mask := orShift mask 32
  mask ||| ((mask &&& 1) <<< 1)

/-- Function `hmap_expand`: resize to `calc_mask n` when that exceeds the current mask. -/
def hmap_expand (h : Hmap) : Hmap :=
  let new_mask := calc_mask h.n
  if h.mask < new_mask then resize h new_mask else h

/-- Function `hmap_shrink`: resize to `calc_mask n` when that is below the current mask. -/
def hmap_shrink (h : Hmap) : Hmap :=
  let new_mask := calc_mask h.n
  if new_mask < h.mask then resize h new_mask else h

/-- Function `hmap_reserve`: resize to `calc_mask n'` for an explicit future count `n'`
when that exceeds the current mask. -/
def hmap_reserve (h : Hmap) (n : Nat) : Hmap :=
  let new_mask := calc_mask n
  if h.mask < new_mask then resize h new_mask else h

/-- The effect of the chain walk of `hmap_node_moved`: the first link whose
target equals `old` is redirected to `nw`, which (being a byte copy of the old
node) carries the same `next` and hence the same chain tail. If no link
matches, the C walk runs off the end of the chain (undefined behaviour); the
model leaves the chain unchanged. -/
def replaceFirst : Bucket → Node → Node → Bucket
  | [], _, _ => []
  | x :: xs, old, nw => if x = old then nw :: xs else x :: replaceFirst xs old nw

/-- The search performed by the walk of `hmap_node_moved`: the number of links
followed before the link whose target equals `old` is found, `none` if no link
of the (finite, null-terminated) chain matches. -/
def findLink : Bucket → Node → Option Nat
  | [], _ => none
  | x :: xs, old => if x = old then some 0 else (findLink xs old).map (· + 1)

/-- Function `hmap_node_moved`: walk the chain of bucket `node->hash & mask` and replace
the one link equal to `old_node` with `node`. -/
def hmap_node_moved (h : Hmap) (old_node node : Node) : Hmap :=
  let i := node.hash &&& h.mask
  setBucket h i (replaceFirst (getBucket h i) old_node node)

/-- The outer loop of `hmap_at_position`, with `fuel` the number of remaining
bucket indices (the C loop runs `b_idx` from `*bucketp` up to `mask`). Returns
the node found (or `none`) together with the values stored back into the
32-bit words `*bucketp` and `*offsetp`, hence the `% 2^32`. The inner loop
finds the `offset`-th node of the chain; `node->next != NULL` is `offset + 1 <
length`. -/
def atPosLoop (h : Hmap) : Nat → Nat → Nat → Option Node × Nat × Nat
  | 0, _, _ => (none, 0, 0)
  | fuel + 1, b_idx, offset =>
    if b_idx ≤ h.mask then
      match (getBucket h b_idx)[offset]? with
      | some node =>
        if offset + 1 < (getBucket h b_idx).length then
          (some node, (node.hash &&& h.mask) % 2 ^ 32, (offset + 1) % 2 ^ 32)
        else
          (some node, ((node.hash &&& h.mask) + 1) % 2 ^ 32, 0)
      | none => atPosLoop h fuel (b_idx + 1) 0
    else (none, 0, 0)

/-- Function `hmap_at_position`: one call, consuming cursor `(bucketp, offsetp)` and
returning the node found (or `none`) plus the rewritten cursor. -/
def hmap_at_position (h : Hmap) (bucketp offsetp : Nat) : Option Node × Nat × Nat :=
  atPosLoop h (h.mask + 1 - bucketp) bucketp offsetp

/-- Repeated calls of `hmap_at_position` starting from cursor `(b, o)`,
collecting the returned nodes in order and ending with the final cursor;
`fuel` bounds the number of calls. -/
def runTraverse (h : Hmap) : Nat → Nat → Nat → List Node × Nat × Nat
  | 0, b, o => ([], b, o)
  | fuel + 1, b, o =>
    match hmap_at_position h b o with
    | (none, b2, o2) => ([], b2, o2)
    | (some nd, b2, o2) =>
      let r := runTraverse h fuel b2 o2
      (nd :: r.1, r.2.1, r.2.2)

/-- All nodes reachable by walking buckets `0 .. mask` of the current bucket
array in order, in chain order within each bucket. -/
def allNodesSeq (h : Hmap) : List Node :=
  ((List.range (h.mask + 1)).map (getBucket h)).flatten

/-- The number of nodes reachable by walking every bucket chain of the current
bucket array. -/
def totalCount (h : Hmap) : Nat := (allNodesSeq h).length

/-- The data-model invariants of §3 of the spec: the inline slot is used exactly
when `mask = 0` and is the table's own; `mask` is `2^k - 1`; `n` counts the
reachable nodes; every node hangs in bucket `hash & mask`. -/
def Wf (h : Hmap) : Prop :=
  (h.mask = 0 → h.buckets = .inl h.id) ∧
  (h.mask ≠ 0 → h.buckets = .heap (arrOf h) ∧ (arrOf h).length = h.mask + 1) ∧
  h.mask &&& (h.mask + 1) = 0 ∧
  h.n = totalCount h ∧
  (∀ i, i < h.mask + 1 → ∀ nd ∈ getBucket h i, nd.hash &&& h.mask = i)

/-- The structural part of the invariant needed by the counting claims: the
bucket array has `mask + 1` readable slots and `n` counts the reachable
nodes. -/
def StructInv (h : Hmap) : Prop :=
  (arrOf h).length = h.mask + 1 ∧ h.n = totalCount h

/-- The operations of claim C2, applied to a table. -/
inductive Op where
  | insert (node : Node) (hash : Nat)
  | remove (node : Node)
  | expand
  | shrink
  | reserve (n : Nat)
  | clear

/-- Apply one operation. -/
def applyOp (h : Hmap) : Op → Hmap
  | .insert nd hash => hmap_insert_fast h nd hash
  | .remove nd => hmap_remove h nd
  | .expand => hmap_expand h
  | .shrink => hmap_shrink h
  | .reserve n => hmap_reserve h n
  | .clear => hmap_clear h

/-- Apply a sequence of operations. -/
def runOps (h : Hmap) (ops : List Op) : Hmap := ops.foldl applyOp h

/-- The smallest value of the form `2^k - 1` that is `≥ m`. -/
def round2m1 (m : Nat) : Nat := 2 ^ Nat.size m - 1

/-- The Capacity Planner as worded by §4.2 of the spec: `capacity/2` rounded up
to the smallest `2^k - 1`; a rounded result of 1 (exactly one dynamically
allocated slot beyond the inline bucket) is forced up to at least 3; a rounded
result of exactly 0 stays 0, the valid "inline slot suffices" output. -/
def specCalcMask (capacity : Nat) : Nat :=
  let r := round2m1 (capacity / 2)
  if r = 0 then 0 else max 3 r

/-- The body of `resize`'s migration loops: fast-insert each node of `L`, in
order, at its stored hash. -/
def insertAll (t : Hmap) (L : List Node) : Hmap :=
  L.foldl (fun t node => hmap_insert_fast t node node.hash) t

/-- The inline-slot invariant of §3 of the spec: a table with `mask = 0` points
`buckets` at its own embedded inline slot; a table with `mask ≠ 0` at a heap
array. -/
def InlineInv (h : Hmap) : Prop :=
  (h.mask = 0 → h.buckets = BucketsRef.inl h.id) ∧
  (h.mask ≠ 0 → h.buckets = BucketsRef.heap (arrOf h))

/-- The nodes of `fuel` consecutive buckets starting at bucket `b`, in bucket
then chain order. -/
def seqFrom (h : Hmap) : Nat → Nat → List Node
  | 0, _ => []
  | fuel + 1, b => getBucket h b ++ seqFrom h fuel (b + 1)

/-- The nodes at or after Position-Cursor position `(b, o)`, in visit order:
the rest of bucket `b` from in-chain offset `o`, then all later buckets up to
`mask`. -/
def restSeq (h : Hmap) (b o : Nat) : List Node :=
  (getBucket h b).drop o ++ seqFrom h (h.mask - b) (b + 1)

/-- A concrete node used by the example instantiations. -/
def sampleNode : Node := { addr := 1, hash := 5 }

/-- A second concrete node. -/
def sampleNode2 : Node := { addr := 2, hash := 6 }

/-- A moved copy of `sampleNode2`: same hash, different address. -/
def sampleNode2Moved : Node := { addr := 10, hash := 6 }

/-- A concrete inline-slot table holding `sampleNode`. -/
def sampleTable : Hmap :=
  { id := 7, buckets := BucketsRef.inl 7, one := [sampleNode], mask := 0, n := 1 }

/-- A concrete heap-array table (mask 3) holding `sampleNode2` in bucket 2. -/
def sampleTable2 : Hmap :=
  { id := 9, buckets := BucketsRef.heap [[], [], [sampleNode2], []], one := [],
    mask := 3, n := 1 }

/-- A node whose hash selects the last bucket of a table with
`mask = 2^32 - 1`. -/
def bigNode : Node := { addr := 3, hash := 2 ^ 32 - 1 }

/-- A well-formed table at `mask = 2^32 - 1` — a mask the program's own
`hmap_reserve` path can produce, since `calc_mask` yields it and it passes both
`resize` assertions — holding exactly one node, in the last bucket. -/
def bigTable : Hmap :=
  { id := 11, buckets := BucketsRef.heap (List.replicate (2 ^ 32 - 1) [] ++ [[bigNode]]),
    one := [], mask := 2 ^ 32 - 1, n := 1 }

/-! ### The Capacity Planner: `calc_mask` -/

/-- Window-1 base case of the bit-spreading argument. -/
lemma smear_base (m : Nat) :
    ∀ i, Nat.testBit m i = true ↔ ∃ d, d < 1 ∧ Nat.testBit m (i + d) = true := by
  intro i
  constructor
  · intro hb
    exact ⟨0, Nat.one_pos, by simpa using hb⟩
  · rintro ⟨d, hd, hb⟩
    have hd0 : d = 0 := by omega
    simpa [hd0] using hb

/-- One `mask |= mask >> w` step doubles the look-ahead window of set bits. -/
lemma orShift_window (w a m : Nat)
    (h : ∀ i, Nat.testBit a i = true ↔ ∃ d, d < w ∧ Nat.testBit m (i + d) = true) :
    ∀ i, Nat.testBit (orShift a w) i = true ↔
      ∃ d, d < 2 * w ∧ Nat.testBit m (i + d) = true := by
  intro i
  rw [orShift, Nat.testBit_or, Bool.or_eq_true, Nat.testBit_shiftRight, h, h]
  constructor
  · rintro (⟨d, hd, hb⟩ | ⟨d, hd, hb⟩)
    · exact ⟨d, by omega, hb⟩
    · exact ⟨w + d, by omega, by rwa [show i + (w + d) = w + i + d by omega]⟩
  · rintro ⟨d, hd, hb⟩
    by_cases hc : d < w
    · exact Or.inl ⟨d, hc, hb⟩
    · exact Or.inr ⟨d - w, by omega, by rwa [show w + i + (d - w) = i + d by omega]⟩

/-- For `m ≠ 0` the top bit, bit `size m - 1`, is set. -/
lemma testBit_size_pred {m : Nat} (hm : m ≠ 0) :
    Nat.testBit m (Nat.size m - 1) = true := by
  have hs : 0 < Nat.size m := Nat.size_pos.mpr (Nat.pos_of_ne_zero hm)
  have h1 : 2 ^ (Nat.size m - 1) ≤ m := Nat.lt_size.mp (by omega)
  have h2 : m < 2 ^ Nat.size m := Nat.lt_size_self m
  have hpow : (0:Nat) < 2 ^ (Nat.size m - 1) := Nat.pos_pow_of_pos _ (by omega)
  have hlo : 1 ≤ m / 2 ^ (Nat.size m - 1) := (Nat.le_div_iff_mul_le hpow).mpr (by omega)
  have hhi : m / 2 ^ (Nat.size m - 1) < 2 := by
    apply Nat.div_lt_of_lt_mul
    have : 2 ^ (Nat.size m - 1) * 2 = 2 ^ Nat.size m := by
      rw [← Nat.pow_succ]
      congr 1
      omega
    omega
  have hq : m / 2 ^ (Nat.size m - 1) = 1 := by omega
  rw [Nat.testBit_to_div_mod, hq]
  simp

/-- A set bit lies below `size m`. -/
lemma lt_size_of_testBit {m i : Nat} (hb : Nat.testBit m i = true) : i < Nat.size m :=
  Nat.lt_size.mpr (Nat.testBit_implies_ge hb)

/-- The full six-step cascade smears a 64-bit value into `2 ^ size m - 1`. -/
lemma smear_sixfold (m : Nat) (hm : m < 2 ^ 64) :
    orShift (orShift (orShift (orShift (orShift (orShift m 1) 2) 4) 8) 16) 32
      = 2 ^ Nat.size m - 1 := by
  have s1 := orShift_window 1 m m (smear_base m)
  have s2 := orShift_window 2 _ m (by simpa using s1)
  have s3 := orShift_window 4 _ m (by simpa using s2)
  have s4 := orShift_window 8 _ m (by simpa using s3)
  have s5 := orShift_window 16 _ m (by simpa using s4)
  have s6 := orShift_window 32 _ m (by simpa using s5)
  have hsz : Nat.size m ≤ 64 := Nat.size_le.mpr hm
  apply Nat.eq_of_testBit_eq
  intro i
  rw [Nat.testBit_two_pow_sub_one]
  by_cases hi : i < Nat.size m
  · have hm0 : m ≠ 0 := by
      intro h0
      rw [h0, Nat.size_zero] at hi
      omega
    have htop := testBit_size_pred hm0
    have : Nat.testBit
        (orShift (orShift (orShift (orShift (orShift (orShift m 1) 2) 4) 8) 16) 32) i
          = true := by
      rw [s6]
      exact ⟨Nat.size m - 1 - i, by omega, by
        rwa [show i + (Nat.size m - 1 - i) = Nat.size m - 1 by omega]⟩
    simp [this, hi]
  · have : ¬ Nat.testBit
        (orShift (orShift (orShift (orShift (orShift (orShift m 1) 2) 4) 8) 16) 32) i
          = true := by
      rw [s6]
      rintro ⟨d, hd, hb⟩
      have := lt_size_of_testBit hb
      omega
    simp only [Bool.not_eq_true] at this
    simp [this, hi]

/-- The minimum-four-buckets floor applied to an all-ones value. -/
lemma floor_step (s : Nat) :
    (2 ^ s - 1) ||| (((2 ^ s - 1) &&& 1) <<< 1)
      = if 2 ^ s - 1 = 0 then 0 else max 3 (2 ^ s - 1) := by
  match s with
  | 0 => decide
  | 1 => decide
  | s + 2 =>
    have h4 : 4 ≤ 2 ^ (s + 2) := by
      have : 2 ^ 2 ≤ 2 ^ (s + 2) := Nat.pow_le_pow_right (by omega) (by omega)
      simpa using this
    have hodd : (2 ^ (s + 2) - 1) % 2 = 1 := by
      have : 2 ^ (s + 2) % 2 = 0 := by
        have : (2:Nat) ∣ 2 ^ (s + 2) := dvd_pow_self 2 (by omega)
        omega
      omega
    rw [Nat.and_one_is_mod, hodd]
    have hone : (1:Nat) <<< 1 = 2 := by decide
    rw [hone]
    have hor : (2 ^ (s + 2) - 1) ||| 2 = 2 ^ (s + 2) - 1 := by
      apply Nat.eq_of_testBit_eq
      intro i
      rw [Nat.testBit_or, Nat.testBit_two_pow_sub_one,
        show (2:Nat) = 2 ^ 1 from rfl, Nat.testBit_two_pow]
      by_cases h1 : i = 1
      · subst h1
        simp [show 1 < s + 2 by omega]
      · have h2 : ¬ (1 = i) := by omega
        simp [h2]
    rw [hor, if_neg (by omega), max_eq_right (by omega)]

/-- On the `size_t` domain, `calc_mask` computes the spec's Capacity Planner. -/
lemma calc_mask_eq_spec (c : Nat) (hc : c < 2 ^ 64) :
    calc_mask c = specCalcMask c := by
  have hm : c / 2 < 2 ^ 64 := lt_of_le_of_lt (Nat.div_le_self _ _) hc
  simp only [calc_mask, specCalcMask, round2m1]
  rw [smear_sixfold (c / 2) hm, floor_step]

/-- The value `round2m1 m` is indeed the least `2^k - 1` above `m`. -/
lemma round2m1_minimal (m : Nat) :
    m ≤ round2m1 m ∧ ∀ k, m ≤ 2 ^ k - 1 → round2m1 m ≤ 2 ^ k - 1 := by
  constructor
  · have := Nat.lt_size_self m
    unfold round2m1
    omega
  · intro k hk
    have hp : (0:Nat) < 2 ^ k := Nat.pos_pow_of_pos _ (by omega)
    have hlt : m < 2 ^ k := by omega
    have hs : Nat.size m ≤ k := Nat.size_le.mpr hlt
    have := Nat.pow_le_pow_right (show 0 < 2 by omega) hs
    unfold round2m1
    omega

/-- All-ones values are disjoint from their successor power of two. -/
lemma and_two_pow_sub_one_self (k : Nat) : (2 ^ k - 1) &&& 2 ^ k = 0 := by
  apply Nat.eq_of_testBit_eq
  intro i
  rw [Nat.testBit_and, Nat.testBit_two_pow_sub_one, Nat.testBit_two_pow, Nat.zero_testBit]
  by_cases h : i < k
  · have h2 : ¬ (k = i) := by omega
    simp [h2]
  · simp [h]

/-- Every planner output on the `size_t` domain is `2^k - 1` for some `k < 64`. -/
lemma specCalcMask_shape (c : Nat) (hc : c < 2 ^ 64) :
    ∃ k, k < 64 ∧ specCalcMask c = 2 ^ k - 1 := by
  have hm : c / 2 < 2 ^ 63 := by omega
  have hsz : Nat.size (c / 2) ≤ 63 := Nat.size_le.mpr hm
  unfold specCalcMask round2m1
  by_cases h0 : 2 ^ Nat.size (c / 2) - 1 = 0
  · exact ⟨0, by omega, by simp [h0]⟩
  · rw [if_neg h0]
    have hpos : 1 ≤ 2 ^ Nat.size (c / 2) - 1 := by omega
    by_cases h1 : Nat.size (c / 2) = 1
    · exact ⟨2, by omega, by rw [h1]; decide⟩
    · have hs2 : 2 ≤ Nat.size (c / 2) := by
        rcases Nat.eq_zero_or_pos (Nat.size (c / 2)) with h | h
        · simp [h] at h0
        · omega
      have h4 : 4 ≤ 2 ^ Nat.size (c / 2) := by
        have : 2 ^ 2 ≤ 2 ^ Nat.size (c / 2) := Nat.pow_le_pow_right (by omega) hs2
        simpa using this
      exact ⟨Nat.size (c / 2), by omega, by rw [max_eq_right (by omega)]⟩

/-- C3: on the `size_t` domain, `calc_mask c` is `c/2` rounded up to the
smallest value of the form `2^k - 1` (the minimality is `round2m1_minimal`),
except that a rounded result of 1 is forced up to 3; a rounded result of
exactly 0 stays 0, the valid "inline slot suffices" planner output. -/
theorem calc_mask_correct (c : Nat) (hc : c < 2 ^ 64) :
    calc_mask c = specCalcMask c ∧
      c / 2 ≤ round2m1 (c / 2) ∧
      (∀ k, c / 2 ≤ 2 ^ k - 1 → round2m1 (c / 2) ≤ 2 ^ k - 1) := by
  refine ⟨calc_mask_eq_spec c hc, ?_, ?_⟩
  · exact (round2m1_minimal (c / 2)).1
  · exact (round2m1_minimal (c / 2)).2

theorem calc_mask_correct_witness :
    1000 < 2 ^ 64 ∧
      (calc_mask 1000 = specCalcMask 1000 ∧
        1000 / 2 ≤ round2m1 (1000 / 2) ∧
        (∀ k, 1000 / 2 ≤ 2 ^ k - 1 → round2m1 (1000 / 2) ≤ 2 ^ k - 1)) :=
  ⟨by decide, calc_mask_correct 1000 (by decide)⟩

/-- C9: every planner output satisfies both asserted preconditions of `resize`:
it is of the form `2^k - 1` (so `mask & (mask + 1) == 0`) and it is not
`SIZE_MAX`; hence the fatal assertions are unreachable through
`hmap_expand`, `hmap_shrink` and `hmap_reserve`, whose targets are always
`calc_mask` outputs. -/
theorem calc_mask_resize_preconditions (c : Nat) (hc : c < 2 ^ 64) :
    calc_mask c &&& (calc_mask c + 1) = 0 ∧ calc_mask c ≠ SIZE_MAX := by
  obtain ⟨k, hk, hshape⟩ := specCalcMask_shape c hc
  have heq : calc_mask c = 2 ^ k - 1 := by rw [calc_mask_eq_spec c hc, hshape]
  have hpos : (0:Nat) < 2 ^ k := Nat.pos_pow_of_pos _ (by omega)
  constructor
  · rw [heq, show 2 ^ k - 1 + 1 = 2 ^ k by omega]
    exact and_two_pow_sub_one_self k
  · rw [heq]
    have : 2 ^ k ≤ 2 ^ 63 := Nat.pow_le_pow_right (by omega) (by omega)
    have h63 : (2:Nat) ^ 63 < 2 ^ 64 := by
      have := Nat.pow_lt_pow_right (show 1 < 2 by omega) (show 63 < 64 by omega)
      exact this
    unfold SIZE_MAX
    omega

theorem calc_mask_resize_preconditions_witness :
    7 < 2 ^ 64 ∧ (calc_mask 7 &&& (calc_mask 7 + 1) = 0 ∧ calc_mask 7 ≠ SIZE_MAX) :=
  ⟨by decide, calc_mask_resize_preconditions 7 (by decide)⟩

/-- C10: `calc_mask` is monotonically nondecreasing on the `size_t` domain. -/
theorem calc_mask_monotone (c1 c2 : Nat) (hle : c1 ≤ c2) (hc : c2 < 2 ^ 64) :
    calc_mask c1 ≤ calc_mask c2 := by
  rw [calc_mask_eq_spec c1 (by omega), calc_mask_eq_spec c2 hc]
  unfold specCalcMask
  have hs : Nat.size (c1 / 2) ≤ Nat.size (c2 / 2) :=
    Nat.size_le_size (Nat.div_le_div_right hle)
  have hr : round2m1 (c1 / 2) ≤ round2m1 (c2 / 2) := by
    unfold round2m1
    have := Nat.pow_le_pow_right (show 0 < 2 by omega) hs
    omega
  by_cases h0 : round2m1 (c1 / 2) = 0
  · simp [h0]
  · rw [if_neg h0, if_neg (by omega)]
    exact max_le_max le_rfl hr

theorem calc_mask_monotone_witness :
    5 ≤ 1000 ∧ 1000 < 2 ^ 64 ∧ calc_mask 5 ≤ calc_mask 1000 :=
  ⟨by decide, by decide, calc_mask_monotone 5 1000 (by decide) (by decide)⟩

/-! ### Bucket-array helper lemmas -/

/-- Reading the whole array back slot by slot. -/
lemma range_map_getD {α : Type} (a : List α) (d : α) :
    (List.range a.length).map (fun i => a.getD i d) = a := by
  induction a with
  | nil => rfl
  | cons x xs ih =>
    rw [List.length_cons, List.range_succ_eq_map, List.map_cons, List.map_map]
    simp only [List.getD_cons_zero, Function.comp_def, List.getD_cons_succ]
    exact congrArg (List.cons x) ih

lemma allNodesSeq_eq_flatten (h : Hmap) (hlen : (arrOf h).length = h.mask + 1) :
    allNodesSeq h = (arrOf h).flatten := by
  show ((List.range (h.mask + 1)).map (fun i => (arrOf h).getD i [])).flatten = _
  rw [← hlen, range_map_getD]

lemma allNodesSeq_congr {h1 h2 : Hmap} (hm : h1.mask = h2.mask)
    (ha : arrOf h1 = arrOf h2) : allNodesSeq h1 = allNodesSeq h2 := by
  show ((List.range (h1.mask + 1)).map (fun i => (arrOf h1).getD i [])).flatten
    = ((List.range (h2.mask + 1)).map (fun i => (arrOf h2).getD i [])).flatten
  rw [hm, ha]

lemma mem_allNodesSeq {h : Hmap} {nd : Node} :
    nd ∈ allNodesSeq h ↔ ∃ i, i < h.mask + 1 ∧ nd ∈ getBucket h i := by
  unfold allNodesSeq
  constructor
  · intro hm
    obtain ⟨l, hl, hnd⟩ := List.mem_flatten.mp hm
    obtain ⟨i, hi, rfl⟩ := List.mem_map.mp hl
    exact ⟨i, List.mem_range.mp hi, hnd⟩
  · rintro ⟨i, hi, hnd⟩
    exact List.mem_flatten.mpr
      ⟨getBucket h i, List.mem_map.mpr ⟨i, List.mem_range.mpr hi, rfl⟩, hnd⟩

lemma flatten_map_nil {f : Nat → Bucket} (hf : ∀ i, f i = []) :
    ∀ r : List Nat, (r.map f).flatten = [] := by
  intro r
  induction r with
  | nil => rfl
  | cons i r ih => simp [hf, ih]

/-- Prepending inside one slot permutes to prepending to the flattening. -/
lemma flatten_set_cons {α : Type} (a : List (List α)) (i : Nat) (x : α)
    (hi : i < a.length) :
    (a.set i (x :: a.getD i [])).flatten.Perm (x :: a.flatten) := by
  induction a generalizing i with
  | nil => simp at hi
  | cons b bs ih =>
    cases i with
    | zero => simp
    | succ j =>
      have hj : j < bs.length := by simpa using hi
      have hrec := ih j hj
      simp only [List.set_cons_succ, List.flatten_cons, List.getD_cons_succ]
      exact (List.Perm.append_left b hrec).trans List.perm_middle

/-- Replacing one slot by a permuted tail permutes the flattening accordingly. -/
lemma flatten_set_replace {α : Type} (a : List (List α)) (i : Nat) (b2 : List α)
    (x : α) (hi : i < a.length) (hb : (a.getD i []).Perm (x :: b2)) :
    a.flatten.Perm (x :: (a.set i b2).flatten) := by
  induction a generalizing i with
  | nil => simp at hi
  | cons c cs ih =>
    cases i with
    | zero =>
      simp only [List.getD_cons_zero] at hb
      simp only [List.set_cons_zero, List.flatten_cons]
      exact hb.append_right cs.flatten
    | succ j =>
      have hj : j < cs.length := by simpa using hi
      simp only [List.getD_cons_succ] at hb
      have hrec := ih j hj hb
      simp only [List.set_cons_succ, List.flatten_cons]
      exact (List.Perm.append_left c hrec).trans List.perm_middle

/-! ### `setBucket` and `hmap_insert_fast` lemmas -/

lemma arrOf_setN (h : Hmap) (m : Nat) : arrOf { h with n := m } = arrOf h := rfl

lemma arrOf_setBucket (h : Hmap) (i : Nat) (b : Bucket) :
    arrOf (setBucket h i b) = (arrOf h).set i b := by
  cases hb : h.buckets with
  | inl o =>
    cases i with
    | zero => simp [setBucket, arrOf, hb]
    | succ j => simp [setBucket, arrOf, hb]
  | heap a => simp [setBucket, arrOf, hb]

lemma setBucket_mask (h : Hmap) (i : Nat) (b : Bucket) :
    (setBucket h i b).mask = h.mask := by
  cases hb : h.buckets with
  | inl o => cases i <;> simp [setBucket, hb]
  | heap a => simp [setBucket, hb]

lemma setBucket_n (h : Hmap) (i : Nat) (b : Bucket) :
    (setBucket h i b).n = h.n := by
  cases hb : h.buckets with
  | inl o => cases i <;> simp [setBucket, hb]
  | heap a => simp [setBucket, hb]

lemma setBucket_inl (h : Hmap) (i : Nat) (b : Bucket) (o : Nat)
    (ho : h.buckets = BucketsRef.inl o) :
    (setBucket h i b).buckets = BucketsRef.inl o := by
  cases i <;> simp [setBucket, ho]

lemma setBucket_heap (h : Hmap) (i : Nat) (b : Bucket) (a : List Bucket)
    (ha : h.buckets = BucketsRef.heap a) :
    (setBucket h i b).buckets = BucketsRef.heap (a.set i b) := by
  simp [setBucket, ha]

lemma getBucket_setBucket_self (h : Hmap) (i : Nat) (b : Bucket)
    (hi : i < (arrOf h).length) :
    getBucket (setBucket h i b) i = b := by
  unfold getBucket
  rw [arrOf_setBucket]
  simp [List.getD_eq_getElem?_getD, List.getElem?_set_self (by simpa using hi)]

lemma getBucket_setBucket_ne (h : Hmap) (i j : Nat) (b : Bucket) (hij : i ≠ j) :
    getBucket (setBucket h i b) j = getBucket h j := by
  unfold getBucket
  rw [arrOf_setBucket]
  simp [List.getD_eq_getElem?_getD, List.getElem?_set_ne hij]

lemma hmap_insert_fast_mask (h : Hmap) (nd : Node) (hs : Nat) :
    (hmap_insert_fast h nd hs).mask = h.mask := by
  unfold hmap_insert_fast
  simp [setBucket_mask]

lemma hmap_insert_fast_n (h : Hmap) (nd : Node) (hs : Nat) :
    (hmap_insert_fast h nd hs).n = h.n + 1 := by
  unfold hmap_insert_fast
  simp [setBucket_n]

lemma hmap_insert_fast_len (h : Hmap) (nd : Node) (hs : Nat) :
    (arrOf (hmap_insert_fast h nd hs)).length = (arrOf h).length := by
  unfold hmap_insert_fast
  simp only [arrOf_setN, arrOf_setBucket, List.length_set]

lemma hmap_insert_fast_inl (h : Hmap) (nd : Node) (hs : Nat) (o : Nat)
    (ho : h.buckets = BucketsRef.inl o) :
    (hmap_insert_fast h nd hs).buckets = BucketsRef.inl o := by
  unfold hmap_insert_fast
  simpa using setBucket_inl h _ _ o ho

lemma hmap_insert_fast_heap (h : Hmap) (nd : Node) (hs : Nat) (a : List Bucket)
    (ha : h.buckets = BucketsRef.heap a) :
    ∃ a2, (hmap_insert_fast h nd hs).buckets = BucketsRef.heap a2 := by
  unfold hmap_insert_fast
  exact ⟨_, by simpa using setBucket_heap h _ _ a ha⟩

lemma hmap_insert_fast_perm (h : Hmap) (nd : Node) (hs : Nat)
    (hlen : (arrOf h).length = h.mask + 1) :
    (allNodesSeq (hmap_insert_fast h nd hs)).Perm
      ({ nd with hash := hs } :: allNodesSeq h) := by
  have hi : hs &&& h.mask < (arrOf h).length := by
    have := Nat.and_le_right (n := hs) (m := h.mask)
    omega
  have harr : arrOf (hmap_insert_fast h nd hs)
      = (arrOf h).set (hs &&& h.mask) ({ nd with hash := hs } :: getBucket h (hs &&& h.mask)) := by
    unfold hmap_insert_fast
    simp only [arrOf_setN, arrOf_setBucket]
  have hflat := flatten_set_cons (arrOf h) (hs &&& h.mask) { nd with hash := hs } hi
  rw [allNodesSeq_eq_flatten _ (by rw [hmap_insert_fast_len, hmap_insert_fast_mask]; exact hlen),
    allNodesSeq_eq_flatten h hlen, harr]
  exact hflat

lemma hmap_insert_fast_placed (h : Hmap) (nd : Node) (hs : Nat)
    (hlen : (arrOf h).length = h.mask + 1)
    (hp : ∀ i, i < h.mask + 1 → ∀ x ∈ getBucket h i, x.hash &&& h.mask = i) :
    ∀ i, i < h.mask + 1 → ∀ x ∈ getBucket (hmap_insert_fast h nd hs) i,
      x.hash &&& h.mask = i := by
  intro i hi x hx
  have hj : hs &&& h.mask < (arrOf h).length := by
    have := Nat.and_le_right (n := hs) (m := h.mask)
    omega
  have hget : getBucket (hmap_insert_fast h nd hs) i
      = getBucket (setBucket h (hs &&& h.mask)
          ({ nd with hash := hs } :: getBucket h (hs &&& h.mask))) i := rfl
  rw [hget] at hx
  by_cases hcase : hs &&& h.mask = i
  · subst hcase
    rw [getBucket_setBucket_self h (hs &&& h.mask) _ hj] at hx
    rcases List.mem_cons.mp hx with rfl | hx2
    · rfl
    · exact hp _ hi x hx2
  · rw [getBucket_setBucket_ne h _ i _ hcase] at hx
    exact hp i hi x hx

lemma insertAll_spec (L : List Node) (t : Hmap)
    (hlen : (arrOf t).length = t.mask + 1) :
    (insertAll t L).mask = t.mask ∧
    (arrOf (insertAll t L)).length = (arrOf t).length ∧
    (insertAll t L).n = t.n + L.length ∧
    (allNodesSeq (insertAll t L)).Perm (L ++ allNodesSeq t) ∧
    ((∀ i, i < t.mask + 1 → ∀ x ∈ getBucket t i, x.hash &&& t.mask = i) →
      ∀ i, i < t.mask + 1 → ∀ x ∈ getBucket (insertAll t L) i,
        x.hash &&& t.mask = i) ∧
    (∀ o, t.buckets = BucketsRef.inl o → (insertAll t L).buckets = BucketsRef.inl o) ∧
    (∀ a, t.buckets = BucketsRef.heap a →
      ∃ a2, (insertAll t L).buckets = BucketsRef.heap a2) := by
  induction L generalizing t with
  | nil =>
    exact ⟨rfl, rfl, rfl, List.Perm.refl _, fun hp => hp, fun o ho => ho,
      fun a ha => ⟨a, ha⟩⟩
  | cons nd L ih =>
    have hstep : insertAll t (nd :: L) = insertAll (hmap_insert_fast t nd nd.hash) L := rfl
    have hnd : ({ nd with hash := nd.hash } : Node) = nd := rfl
    have hlen2 : (arrOf (hmap_insert_fast t nd nd.hash)).length
        = (hmap_insert_fast t nd nd.hash).mask + 1 := by
      rw [hmap_insert_fast_len, hmap_insert_fast_mask]
      exact hlen
    obtain ⟨m2, l2, n2, p2, pl2, il2, hp2⟩ := ih (hmap_insert_fast t nd nd.hash) hlen2
    rw [hstep]
    refine ⟨?_, ?_, ?_, ?_, ?_, ?_, ?_⟩
    · rw [m2, hmap_insert_fast_mask]
    · rw [l2, hmap_insert_fast_len]
    · rw [n2, hmap_insert_fast_n]
      simp only [List.length_cons]
      omega
    · have hperm1 := hmap_insert_fast_perm t nd nd.hash hlen
      rw [hnd] at hperm1
      exact (p2.trans (List.Perm.append_left L hperm1)).trans List.perm_middle
    · intro hp i hi x hx
      have hmeq : (hmap_insert_fast t nd nd.hash).mask = t.mask :=
        hmap_insert_fast_mask t nd nd.hash
      have hp1 := hmap_insert_fast_placed t nd nd.hash hlen hp
      have := pl2 (by rw [hmeq]; exact hp1) i (by rw [hmeq]; exact hi) x hx
      rwa [hmeq] at this
    · intro o ho
      exact il2 o (hmap_insert_fast_inl t nd nd.hash o ho)
    · intro a ha
      obtain ⟨a1, ha1⟩ := hmap_insert_fast_heap t nd nd.hash a ha
      exact hp2 a1 ha1

/-! ### `resize` -/

lemma foldl_flatten_eq {α β : Type} (f : β → α → β) (ls : List (List α)) :
    ∀ b : β, ls.flatten.foldl f b = ls.foldl (fun acc l => l.foldl f acc) b := by
  induction ls with
  | nil => intro b; rfl
  | cons l ls ih =>
    intro b
    simp only [List.flatten_cons, List.foldl_append, List.foldl_cons]
    exact ih _

/-- The nested migration loops of `resize` insert exactly the node sequence of
the old table, in walking order. -/
lemma resize_loop_eq (h t : Hmap) :
    (List.range (h.mask + 1)).foldl
      (fun t i => (getBucket h i).foldl (fun t node => hmap_insert_fast t node node.hash) t) t
    = insertAll t (allNodesSeq h) := by
  unfold insertAll allNodesSeq
  rw [foldl_flatten_eq, List.foldl_map]

lemma swap_fst_spec (a b : Hmap) (hb : b.mask = 0 → ∃ o, b.buckets = BucketsRef.inl o) :
    (hmap_swap a b).1.mask = b.mask ∧ (hmap_swap a b).1.n = b.n ∧
    arrOf (hmap_swap a b).1 = arrOf b ∧
    (b.mask = 0 → (hmap_swap a b).1.buckets = BucketsRef.inl a.id) ∧
    (b.mask ≠ 0 → (hmap_swap a b).1.buckets = b.buckets) := by
  by_cases h0 : b.mask = 0
  · obtain ⟨o, ho⟩ := hb h0
    refine ⟨?_, ?_, ?_, ?_, ?_⟩ <;> simp [hmap_swap, hmap_moved, h0, arrOf, ho]
  · refine ⟨?_, ?_, ?_, ?_, ?_⟩ <;>
      cases hbb : b.buckets <;> simp [hmap_swap, hmap_moved, h0, arrOf, hbb]

lemma getD_replicate_nil (k i : Nat) :
    (List.replicate k ([] : Bucket)).getD i [] = [] := by
  rw [List.getD_eq_getElem?_getD, List.getElem?_replicate]
  split <;> rfl

/-- The initial temporary of `resize h M`, before migration. -/
lemma resize_tmp_facts (h : Hmap) (M : Nat) :
    let t0 := if M ≠ 0 then
        { hmap_init (h.id + 1) with
          buckets := BucketsRef.heap (List.replicate (M + 1) []), mask := M }
      else hmap_init (h.id + 1)
    t0.mask = M ∧ t0.n = 0 ∧ (arrOf t0).length = M + 1 ∧
      (∀ i, getBucket t0 i = []) ∧ allNodesSeq t0 = [] ∧
      (M = 0 → t0.buckets = BucketsRef.inl (h.id + 1)) ∧
      (M ≠ 0 → ∃ a, t0.buckets = BucketsRef.heap a) := by
  intro t0
  by_cases hM : M = 0
  · have ht0 : t0 = hmap_init (h.id + 1) := by simp [t0, hM]
    subst hM
    refine ⟨by rw [ht0]; rfl, by rw [ht0]; rfl, by rw [ht0]; rfl, ?_, ?_, ?_, ?_⟩
    · intro i
      rw [ht0]
      cases i <;> rfl
    · rw [ht0]
      rfl
    · intro _
      rw [ht0]
      rfl
    · intro hc
      exact absurd rfl hc
  · have ht0 : t0 = { hmap_init (h.id + 1) with
        buckets := BucketsRef.heap (List.replicate (M + 1) []), mask := M } := by
      simp [t0, hM]
    have hget : ∀ i, getBucket t0 i = [] := by
      intro i
      rw [ht0]
      show (List.replicate (M + 1) ([] : Bucket)).getD i [] = []
      exact getD_replicate_nil _ _
    refine ⟨by rw [ht0], by rw [ht0]; rfl, ?_, hget, ?_, fun hc => absurd hc hM, ?_⟩
    · rw [ht0]
      show (List.replicate (M + 1) ([] : Bucket)).length = M + 1
      simp
    · exact flatten_map_nil hget _
    · intro _
      rw [ht0]
      exact ⟨_, rfl⟩

/-- Everything the claims need about `resize h M`: the mask becomes `M`, `n`
becomes the reachable-node count of the old table, the bucket array has `M + 1`
slots, the node sequence is a permutation of the old one (same nodes, same
`hash` fields), and every node hangs in bucket `hash & M`. -/
lemma resize_spec (h : Hmap) (M : Nat) :
    (resize h M).mask = M ∧
    (resize h M).n = totalCount h ∧
    (arrOf (resize h M)).length = M + 1 ∧
    (allNodesSeq (resize h M)).Perm (allNodesSeq h) ∧
    (∀ i, i < M + 1 → ∀ x ∈ getBucket (resize h M) i, x.hash &&& M = i) ∧
    ((resize h M).mask = 0 → (resize h M).buckets = BucketsRef.inl h.id) ∧
    ((resize h M).mask ≠ 0 → ∃ a, (resize h M).buckets = BucketsRef.heap a) := by
  obtain ⟨hm0, hn0, hl0, hg0, ha0, hinl0, hheap0⟩ := resize_tmp_facts h M
  set t0 := if M ≠ 0 then
      { hmap_init (h.id + 1) with
        buckets := BucketsRef.heap (List.replicate (M + 1) []), mask := M }
    else hmap_init (h.id + 1) with ht0
  have hres : resize h M = (hmap_swap h (insertAll t0 (allNodesSeq h))).1 := by
    show (hmap_swap h ((List.range (h.mask + 1)).foldl
        (fun t i => (getBucket h i).foldl
          (fun t node => hmap_insert_fast t node node.hash) t) t0)).1 = _
    rw [resize_loop_eq]
  obtain ⟨m2, l2, n2, p2, pl2, il2, hp2⟩ :=
    insertAll_spec (allNodesSeq h) t0 (by rw [hl0, hm0])
  set t2 := insertAll t0 (allNodesSeq h) with ht2
  have hmask2 : t2.mask = M := by rw [m2, hm0]
  have hswap := swap_fst_spec h t2 (by
    intro hz
    rw [hmask2] at hz
    exact ⟨h.id + 1, il2 _ (hinl0 hz)⟩)
  obtain ⟨sm, sn, sa, sinl, sheap⟩ := hswap
  have hp2' : (allNodesSeq t2).Perm (allNodesSeq h) := by
    have := p2
    rw [ha0, List.append_nil] at this
    exact this
  have hrm : (resize h M).mask = M := by rw [hres, sm, hmask2]
  have hra : arrOf (resize h M) = arrOf t2 := by rw [hres, sa]
  have hseq : allNodesSeq (resize h M) = allNodesSeq t2 :=
    allNodesSeq_congr (by rw [hrm, hmask2]) hra
  refine ⟨hrm, ?_, ?_, ?_, ?_, ?_, ?_⟩
  · rw [hres, sn, n2, hn0, totalCount]
    exact Nat.zero_add _
  · rw [hra, l2, hl0]
  · rw [hseq]
    exact hp2'
  · intro i hi x hx
    have hplaced := pl2 (by
        rw [hm0]
        intro i hi x hx
        rw [hg0 i] at hx
        exact absurd hx (List.not_mem_nil x))
    have hgb : getBucket (resize h M) i = getBucket t2 i := by
      unfold getBucket
      rw [hra]
    rw [hgb] at hx
    have := hplaced i (by rw [hm0]; exact hi) x hx
    rwa [hm0] at this
  · intro hz
    rw [hrm] at hz
    rw [hres]
    exact sinl (by rw [hmask2]; exact hz)
  · intro hz
    rw [hrm] at hz
    obtain ⟨a, ha⟩ := hheap0 hz
    obtain ⟨a2, ha2⟩ := hp2 a ha
    rw [hres, sheap (by rw [hmask2]; exact hz), ha2]
    exact ⟨a2, rfl⟩

/-- C1: for a table satisfying the data-model invariants and a target mask
accepted by `resize`'s asserted preconditions, after `resize h M` the mask
equals `M`, `n` is unchanged, the table holds exactly the nodes it held before
with their `hash` fields unchanged (the node sequence is a permutation of the
old one, and nodes carry their hash), and each old node is reachable in bucket
`hash & M` of the new bucket array. -/
theorem resize_correct (h : Hmap) (M : Nat) (hwf : Wf h)
    (hp1 : M &&& (M + 1) = 0) (hp2 : M ≠ SIZE_MAX) :
    (resize h M).mask = M ∧
    (resize h M).n = h.n ∧
    (allNodesSeq (resize h M)).Perm (allNodesSeq h) ∧
    ∀ nd, nd ∈ allNodesSeq h → nd ∈ getBucket (resize h M) (nd.hash &&& M) := by
  obtain ⟨rm, rn, rl, rp, rplace, -, -⟩ := resize_spec h M
  obtain ⟨-, -, -, hcount, -⟩ := hwf
  refine ⟨rm, by rw [rn, hcount], rp, ?_⟩
  intro nd hnd
  have hnd2 : nd ∈ allNodesSeq (resize h M) := rp.mem_iff.mpr hnd
  obtain ⟨i, hi, hmem⟩ := mem_allNodesSeq.mp hnd2
  rw [rm] at hi
  have hplace := rplace i hi nd hmem
  rw [hplace]
  exact hmem

theorem resize_correct_witness :
    (Wf sampleTable ∧ 3 &&& (3 + 1) = 0 ∧ (3:Nat) ≠ SIZE_MAX) ∧
    ((resize sampleTable 3).mask = 3 ∧
      (resize sampleTable 3).n = sampleTable.n ∧
      (allNodesSeq (resize sampleTable 3)).Perm (allNodesSeq sampleTable) ∧
      ∀ nd, nd ∈ allNodesSeq sampleTable →
        nd ∈ getBucket (resize sampleTable 3) (nd.hash &&& 3)) :=
  ⟨⟨by unfold Wf; decide, by decide, by unfold SIZE_MAX; decide⟩,
    resize_correct sampleTable 3 (by unfold Wf; decide) (by decide)
      (by unfold SIZE_MAX; decide)⟩

/-- C5: calling `hmap_expand` (resp. `hmap_shrink`, resp. `hmap_reserve` with
the same target) twice in a row resizes at most once: after the first call the
trigger condition fails, and the second call returns the table unchanged. -/
theorem expand_shrink_reserve_idempotent (h : Hmap) (k : Nat)
    (hn : h.n = totalCount h) :
    hmap_expand (hmap_expand h) = hmap_expand h ∧
    hmap_shrink (hmap_shrink h) = hmap_shrink h ∧
    hmap_reserve (hmap_reserve h k) k = hmap_reserve h k := by
  have eeq : ∀ g : Hmap,
      hmap_expand g = if g.mask < calc_mask g.n then resize g (calc_mask g.n) else g :=
    fun g => rfl
  have seq : ∀ g : Hmap,
      hmap_shrink g = if calc_mask g.n < g.mask then resize g (calc_mask g.n) else g :=
    fun g => rfl
  have req : ∀ g : Hmap,
      hmap_reserve g k = if g.mask < calc_mask k then resize g (calc_mask k) else g :=
    fun g => rfl
  refine ⟨?_, ?_, ?_⟩
  · by_cases hc : h.mask < calc_mask h.n
    · obtain ⟨rm, rn, -, -, -, -, -⟩ := resize_spec h (calc_mask h.n)
      have h1 : hmap_expand h = resize h (calc_mask h.n) := by rw [eeq, if_pos hc]
      rw [h1, eeq, rn, ← hn, rm, if_neg (lt_irrefl _)]
    · have h1 : hmap_expand h = h := by rw [eeq, if_neg hc]
      rw [h1]
      exact h1
  · by_cases hc : calc_mask h.n < h.mask
    · obtain ⟨rm, rn, -, -, -, -, -⟩ := resize_spec h (calc_mask h.n)
      have h1 : hmap_shrink h = resize h (calc_mask h.n) := by rw [seq, if_pos hc]
      rw [h1, seq, rn, ← hn, rm, if_neg (lt_irrefl _)]
    · have h1 : hmap_shrink h = h := by rw [seq, if_neg hc]
      rw [h1]
      exact h1
  · by_cases hc : h.mask < calc_mask k
    · obtain ⟨rm, -, -, -, -, -, -⟩ := resize_spec h (calc_mask k)
      have h1 : hmap_reserve h k = resize h (calc_mask k) := by rw [req, if_pos hc]
      rw [h1, req, rm, if_neg (lt_irrefl _)]
    · have h1 : hmap_reserve h k = h := by rw [req, if_neg hc]
      rw [h1]
      exact h1

theorem expand_shrink_reserve_idempotent_witness :
    ((hmap_init 0).n = totalCount (hmap_init 0)) ∧
    (hmap_expand (hmap_expand (hmap_init 0)) = hmap_expand (hmap_init 0) ∧
      hmap_shrink (hmap_shrink (hmap_init 0)) = hmap_shrink (hmap_init 0) ∧
      hmap_reserve (hmap_reserve (hmap_init 0) 100) 100
        = hmap_reserve (hmap_init 0) 100) :=
  ⟨by decide, expand_shrink_reserve_idempotent (hmap_init 0) 100 (by decide)⟩

/-! ### The counting invariant (C2) -/

lemma structInv_insert (h : Hmap) (nd : Node) (hs : Nat) (hinv : StructInv h) :
    StructInv (hmap_insert_fast h nd hs) := by
  obtain ⟨hlen, hcnt⟩ := hinv
  constructor
  · rw [hmap_insert_fast_len, hmap_insert_fast_mask]
    exact hlen
  · have hp := (hmap_insert_fast_perm h nd hs hlen).length_eq
    rw [hmap_insert_fast_n, totalCount, hp, List.length_cons, hcnt, totalCount]

lemma structInv_remove (h : Hmap) (nd : Node) (hinv : StructInv h) :
    StructInv (hmap_remove h nd) := by
  obtain ⟨hlen, hcnt⟩ := hinv
  by_cases hmem : nd ∈ getBucket h (nd.hash &&& h.mask)
  · have hi : nd.hash &&& h.mask < (arrOf h).length := by
      have := Nat.and_le_right (n := nd.hash) (m := h.mask)
      omega
    have hr : hmap_remove h nd
        = { setBucket h (nd.hash &&& h.mask)
              ((getBucket h (nd.hash &&& h.mask)).erase nd) with
            n := (setBucket h (nd.hash &&& h.mask)
              ((getBucket h (nd.hash &&& h.mask)).erase nd)).n - 1 } := by
      show (if nd ∈ getBucket h (nd.hash &&& h.mask) then _ else h) = _
      rw [if_pos hmem]
    have harr : arrOf (hmap_remove h nd)
        = (arrOf h).set (nd.hash &&& h.mask)
            ((getBucket h (nd.hash &&& h.mask)).erase nd) := by
      rw [hr, arrOf_setN, arrOf_setBucket]
    have hmask : (hmap_remove h nd).mask = h.mask := by
      rw [hr]
      show (setBucket h _ _).mask = h.mask
      exact setBucket_mask h _ _
    have hlen2 : (arrOf (hmap_remove h nd)).length = (hmap_remove h nd).mask + 1 := by
      rw [harr, List.length_set, hmask]
      exact hlen
    have hperm : (allNodesSeq h).Perm (nd :: allNodesSeq (hmap_remove h nd)) := by
      rw [allNodesSeq_eq_flatten h hlen, allNodesSeq_eq_flatten _ hlen2, harr]
      exact flatten_set_replace (arrOf h) (nd.hash &&& h.mask) _ nd hi
        (List.perm_cons_erase hmem)
    have hcount : totalCount h = totalCount (hmap_remove h nd) + 1 := by
      rw [totalCount, totalCount, hperm.length_eq, List.length_cons]
    have hn2 : (hmap_remove h nd).n = h.n - 1 := by
      rw [hr]
      show (setBucket h _ _).n - 1 = h.n - 1
      rw [setBucket_n]
    refine ⟨hlen2, ?_⟩
    rw [hn2, hcnt]
    omega
  · have hr : hmap_remove h nd = h := by
      show (if nd ∈ getBucket h (nd.hash &&& h.mask) then _ else h) = h
      rw [if_neg hmem]
    rw [hr]
    exact ⟨hlen, hcnt⟩

lemma structInv_resize (h : Hmap) (M : Nat) : StructInv (resize h M) := by
  obtain ⟨rm, rn, rl, rp, -, -, -⟩ := resize_spec h M
  refine ⟨by rw [rl, rm], ?_⟩
  rw [rn, totalCount, totalCount, rp.length_eq]

lemma structInv_clear (h : Hmap) (hinv : StructInv h) : StructInv (hmap_clear h) := by
  obtain ⟨hlen, hcnt⟩ := hinv
  by_cases hn : 0 < h.n
  · cases hb : h.buckets with
    | inl o =>
      have hmask : h.mask = 0 := by
        simp only [arrOf, hb] at hlen
        simp at hlen
        omega
      have hc : hmap_clear h = { h with one := [], n := 0 } := by
        simp only [hmap_clear, hb, if_pos hn]
      rw [hc]
      have hg : ∀ i, getBucket { h with one := [], n := 0 } i = [] := by
        intro i
        simp only [getBucket, arrOf, hb]
        cases i <;> rfl
      refine ⟨?_, ?_⟩
      · simp [arrOf, hb, hmask]
      · show (0:Nat) = totalCount _
        rw [totalCount, allNodesSeq, flatten_map_nil hg]
        rfl
    | heap a =>
      have hc : hmap_clear h = { h with buckets := BucketsRef.heap (List.replicate (h.mask + 1) []), n := 0 } := by
        simp only [hmap_clear, hb, if_pos hn]
      rw [hc]
      have hg : ∀ i, getBucket { h with buckets := BucketsRef.heap (List.replicate (h.mask + 1) []), n := 0 } i = [] := by
        intro i
        simp only [getBucket, arrOf]
        exact getD_replicate_nil _ _
      refine ⟨?_, ?_⟩
      · simp [arrOf]
      · show (0:Nat) = totalCount _
        rw [totalCount, allNodesSeq, flatten_map_nil hg]
        rfl
  · have hc : hmap_clear h = h := by
      simp [hmap_clear, hn]
    rw [hc]
    exact ⟨hlen, hcnt⟩

lemma structInv_applyOp (h : Hmap) (op : Op) (hinv : StructInv h) :
    StructInv (applyOp h op) := by
  cases op with
  | insert nd hs => exact structInv_insert h nd hs hinv
  | remove nd => exact structInv_remove h nd hinv
  | expand =>
    show StructInv (hmap_expand h)
    have he : hmap_expand h
        = if h.mask < calc_mask h.n then resize h (calc_mask h.n) else h := rfl
    rw [he]
    split
    · exact structInv_resize h _
    · exact hinv
  | shrink =>
    show StructInv (hmap_shrink h)
    have he : hmap_shrink h
        = if calc_mask h.n < h.mask then resize h (calc_mask h.n) else h := rfl
    rw [he]
    split
    · exact structInv_resize h _
    · exact hinv
  | reserve k =>
    show StructInv (hmap_reserve h k)
    have he : hmap_reserve h k
        = if h.mask < calc_mask k then resize h (calc_mask k) else h := rfl
    rw [he]
    split
    · exact structInv_resize h _
    · exact hinv
  | clear => exact structInv_clear h hinv

/-- C2: after any sequence of fast-insert, remove, expand, shrink, reserve and
clear operations applied to an initialized table, `n` equals the number of
nodes reachable by walking every bucket chain of the current bucket array. -/
theorem n_counts_reachable (addr : Nat) (ops : List Op) :
    (runOps (hmap_init addr) ops).n = totalCount (runOps (hmap_init addr) ops) := by
  have key : ∀ (l : List Op) (g : Hmap), StructInv g → StructInv (runOps g l) := by
    intro l
    induction l with
    | nil => exact fun g hg => hg
    | cons op l ih => exact fun g hg => ih (applyOp g op) (structInv_applyOp g op hg)
  have h0 : StructInv (hmap_init addr) := ⟨rfl, rfl⟩
  exact (key ops (hmap_init addr) h0).2

/-! ### `hmap_swap` (C6) -/

lemma hmap_moved_id (h : Hmap) : (hmap_moved h).id = h.id := by
  unfold hmap_moved
  split <;> rfl

lemma swap_fst_inlineInv (a b : Hmap) (hb : InlineInv b) :
    InlineInv (hmap_swap a b).1 := by
  obtain ⟨sm, sn, sa, sinl, sheap⟩ := swap_fst_spec a b (fun hz => ⟨b.id, hb.1 hz⟩)
  have hid : (hmap_swap a b).1.id = a.id := by
    show (hmap_moved _).id = a.id
    rw [hmap_moved_id]
  constructor
  · intro hz
    rw [sinl (by rw [← sm]; exact hz), hid]
  · intro hz
    have hz2 : b.mask ≠ 0 := by rw [← sm]; exact hz
    rw [sheap hz2, hb.2 hz2, sa]

/-- C6: after `hmap_swap a b`, each table (still at its own address) holds the
other's pre-swap mask, count and bucket contents (inline-slot value included,
via `arrOf`), and the inline-slot invariant holds of both results: a result
with `mask = 0` points `buckets` at its own embedded inline slot, never the
other table's. -/
theorem hmap_swap_correct (a b : Hmap) (ha : InlineInv a) (hb : InlineInv b) :
    (hmap_swap a b).1.id = a.id ∧ (hmap_swap a b).2.id = b.id ∧
    (hmap_swap a b).1.mask = b.mask ∧ (hmap_swap a b).1.n = b.n ∧
    arrOf (hmap_swap a b).1 = arrOf b ∧
    (hmap_swap a b).2.mask = a.mask ∧ (hmap_swap a b).2.n = a.n ∧
    arrOf (hmap_swap a b).2 = arrOf a ∧
    InlineInv (hmap_swap a b).1 ∧ InlineInv (hmap_swap a b).2 := by
  have h21 : (hmap_swap a b).2 = (hmap_swap b a).1 := rfl
  obtain ⟨sm1, sn1, sa1, -, -⟩ := swap_fst_spec a b (fun hz => ⟨b.id, hb.1 hz⟩)
  obtain ⟨sm2, sn2, sa2, -, -⟩ := swap_fst_spec b a (fun hz => ⟨a.id, ha.1 hz⟩)
  refine ⟨?_, ?_, sm1, sn1, sa1, ?_, ?_, ?_, ?_, ?_⟩
  · show (hmap_moved _).id = a.id
    rw [hmap_moved_id]
  · show (hmap_moved _).id = b.id
    rw [hmap_moved_id]
  · rw [h21]
    exact sm2
  · rw [h21]
    exact sn2
  · rw [h21]
    exact sa2
  · exact swap_fst_inlineInv a b hb
  · rw [h21]
    exact swap_fst_inlineInv b a ha

theorem hmap_swap_correct_witness :
    (InlineInv sampleTable ∧ InlineInv sampleTable2) ∧
    ((hmap_swap sampleTable sampleTable2).1.id = sampleTable.id ∧
      (hmap_swap sampleTable sampleTable2).2.id = sampleTable2.id ∧
      (hmap_swap sampleTable sampleTable2).1.mask = sampleTable2.mask ∧
      (hmap_swap sampleTable sampleTable2).1.n = sampleTable2.n ∧
      arrOf (hmap_swap sampleTable sampleTable2).1 = arrOf sampleTable2 ∧
      (hmap_swap sampleTable sampleTable2).2.mask = sampleTable.mask ∧
      (hmap_swap sampleTable sampleTable2).2.n = sampleTable.n ∧
      arrOf (hmap_swap sampleTable sampleTable2).2 = arrOf sampleTable ∧
      InlineInv (hmap_swap sampleTable sampleTable2).1 ∧
      InlineInv (hmap_swap sampleTable sampleTable2).2) :=
  ⟨⟨by unfold InlineInv; decide, by unfold InlineInv; decide⟩,
    hmap_swap_correct sampleTable sampleTable2
      (by unfold InlineInv; decide) (by unfold InlineInv; decide)⟩

/-! ### `hmap_node_moved` (C7, C8) -/

lemma wf_len (h : Hmap) (hwf : Wf h) : (arrOf h).length = h.mask + 1 := by
  obtain ⟨hinl, hheap, -, -, -⟩ := hwf
  by_cases hz : h.mask = 0
  · rw [hz]
    simp [arrOf, hinl hz]
  · exact (hheap hz).2

lemma replaceFirst_of_mem (l : Bucket) (old nw : Node) (hmem : old ∈ l) :
    ∃ k, k < l.length ∧ l[k]? = some old ∧ replaceFirst l old nw = l.set k nw := by
  induction l with
  | nil => simp at hmem
  | cons x xs ih =>
    by_cases hx : x = old
    · refine ⟨0, by simp, by simp [hx], ?_⟩
      simp [replaceFirst, hx]
    · have hmem2 : old ∈ xs := by
        rcases List.mem_cons.mp hmem with h1 | h2
        · exact absurd h1.symm hx
        · exact h2
      obtain ⟨k, hk, hg, hr⟩ := ih hmem2
      refine ⟨k + 1, by simpa using hk, by simpa using hg, ?_⟩
      simp [replaceFirst, hx, hr]

/-- C7: with the old node present in bucket `node->hash & mask` (and the moved
copy carrying the same hash), `hmap_node_moved` leaves `mask` and `n`
untouched, makes the new node reachable by hashing and walking its bucket
chain, leaves every other bucket exactly as it was, and rewrites exactly one
chain link: the bucket of the node becomes the old chain with the old node
overwritten in place by the new one (same position, all other nodes and their
order unaltered). -/
theorem hmap_node_moved_correct (h : Hmap) (old nw : Node) (hwf : Wf h)
    (hh : nw.hash = old.hash)
    (hmem : old ∈ getBucket h (nw.hash &&& h.mask)) :
    (hmap_node_moved h old nw).mask = h.mask ∧
    (hmap_node_moved h old nw).n = h.n ∧
    nw ∈ getBucket (hmap_node_moved h old nw)
      (nw.hash &&& (hmap_node_moved h old nw).mask) ∧
    (∀ j, j ≠ nw.hash &&& h.mask →
      getBucket (hmap_node_moved h old nw) j = getBucket h j) ∧
    ∃ k, k < (getBucket h (nw.hash &&& h.mask)).length ∧
      (getBucket h (nw.hash &&& h.mask))[k]? = some old ∧
      getBucket (hmap_node_moved h old nw) (nw.hash &&& h.mask)
        = (getBucket h (nw.hash &&& h.mask)).set k nw := by
  have hlen := wf_len h hwf
  have hi : nw.hash &&& h.mask < (arrOf h).length := by
    have := Nat.and_le_right (n := nw.hash) (m := h.mask)
    omega
  have hdef : hmap_node_moved h old nw
      = setBucket h (nw.hash &&& h.mask)
          (replaceFirst (getBucket h (nw.hash &&& h.mask)) old nw) := rfl
  have hmask : (hmap_node_moved h old nw).mask = h.mask := by
    rw [hdef]
    exact setBucket_mask h _ _
  have hn : (hmap_node_moved h old nw).n = h.n := by
    rw [hdef]
    exact setBucket_n h _ _
  obtain ⟨k, hk, hg, hr⟩ :=
    replaceFirst_of_mem (getBucket h (nw.hash &&& h.mask)) old nw hmem
  have hself : getBucket (hmap_node_moved h old nw) (nw.hash &&& h.mask)
      = (getBucket h (nw.hash &&& h.mask)).set k nw := by
    rw [hdef, getBucket_setBucket_self h _ _ hi, hr]
  refine ⟨hmask, hn, ?_, ?_, ⟨k, hk, hg, hself⟩⟩
  · rw [hmask, hself]
    apply List.getElem?_mem (n := k)
    rw [List.getElem?_set_self]
    simpa using hk
  · intro j hj
    rw [hdef]
    exact getBucket_setBucket_ne h _ j _ (fun he => hj he.symm)

theorem hmap_node_moved_correct_witness :
    (Wf sampleTable2 ∧ sampleNode2Moved.hash = sampleNode2.hash ∧
      sampleNode2 ∈ getBucket sampleTable2 (sampleNode2Moved.hash &&& sampleTable2.mask)) ∧
    ((hmap_node_moved sampleTable2 sampleNode2 sampleNode2Moved).mask = sampleTable2.mask ∧
      (hmap_node_moved sampleTable2 sampleNode2 sampleNode2Moved).n = sampleTable2.n ∧
      sampleNode2Moved ∈ getBucket (hmap_node_moved sampleTable2 sampleNode2 sampleNode2Moved)
        (sampleNode2Moved.hash &&& (hmap_node_moved sampleTable2 sampleNode2 sampleNode2Moved).mask) ∧
      (∀ j, j ≠ sampleNode2Moved.hash &&& sampleTable2.mask →
        getBucket (hmap_node_moved sampleTable2 sampleNode2 sampleNode2Moved) j
          = getBucket sampleTable2 j) ∧
      ∃ k, k < (getBucket sampleTable2 (sampleNode2Moved.hash &&& sampleTable2.mask)).length ∧
        (getBucket sampleTable2 (sampleNode2Moved.hash &&& sampleTable2.mask))[k]?
          = some sampleNode2 ∧
        getBucket (hmap_node_moved sampleTable2 sampleNode2 sampleNode2Moved)
          (sampleNode2Moved.hash &&& sampleTable2.mask)
          = (getBucket sampleTable2
              (sampleNode2Moved.hash &&& sampleTable2.mask)).set k sampleNode2Moved) :=
  ⟨⟨by unfold Wf; decide, by decide, by decide⟩,
    hmap_node_moved_correct sampleTable2 sampleNode2 sampleNode2Moved
      (by unfold Wf; decide) (by decide) (by decide)⟩

lemma findLink_mem (l : Bucket) (old : Node) :
    (old ∈ l → ∃ k, k < l.length ∧ findLink l old = some k) ∧
    (old ∉ l → findLink l old = none) := by
  induction l with
  | nil =>
    refine ⟨fun hm => absurd hm (List.not_mem_nil old), fun _ => rfl⟩
  | cons x xs ih =>
    by_cases hx : x = old
    · refine ⟨fun _ => ⟨0, by simp, by simp [findLink, hx]⟩, fun hnm => ?_⟩
      subst hx
      exact absurd (List.mem_cons_self x xs) hnm
    · constructor
      · intro hm
        have hmem2 : old ∈ xs := by
          rcases List.mem_cons.mp hm with h1 | h2
          · exact absurd h1.symm hx
          · exact h2
        obtain ⟨k, hk, hf⟩ := ih.1 hmem2
        refine ⟨k + 1, by simpa using hk, ?_⟩
        simp [findLink, hx, hf]
      · intro hnm
        have hnm2 : old ∉ xs := fun hm2 => hnm (List.mem_cons_of_mem x hm2)
        simp [findLink, hx, ih.2 hnm2]

/-- C8: the chain walk of `hmap_node_moved` over bucket `node->hash & mask`
finds the matching link after finitely many `next` steps exactly when the old
node is genuinely present in that chain; when it is absent, no finite number
of steps along the (null-terminated) chain ever finds a match — in the C
program the walk then dereferences past the end of the chain and is
unbounded. -/
theorem node_moved_walk_terminates (h : Hmap) (old nw : Node) :
    (old ∈ getBucket h (nw.hash &&& h.mask) →
      ∃ k, k < (getBucket h (nw.hash &&& h.mask)).length ∧
        findLink (getBucket h (nw.hash &&& h.mask)) old = some k) ∧
    (old ∉ getBucket h (nw.hash &&& h.mask) →
      findLink (getBucket h (nw.hash &&& h.mask)) old = none) :=
  findLink_mem (getBucket h (nw.hash &&& h.mask)) old

theorem node_moved_walk_terminates_witness :
    (sampleNode2 ∈ getBucket sampleTable2 (sampleNode2Moved.hash &&& sampleTable2.mask)) ∧
    (∃ k, k < (getBucket sampleTable2 (sampleNode2Moved.hash &&& sampleTable2.mask)).length ∧
      findLink (getBucket sampleTable2 (sampleNode2Moved.hash &&& sampleTable2.mask))
        sampleNode2 = some k) :=
  ⟨by decide,
    (node_moved_walk_terminates sampleTable2 sampleNode2 sampleNode2Moved).1 (by decide)⟩

/-! ### `hmap_at_position` (C4) -/

lemma getBucket_oob (h : Hmap) (j : Nat) (hlen : (arrOf h).length = h.mask + 1)
    (hj : h.mask + 1 ≤ j) : getBucket h j = [] := by
  unfold getBucket
  rw [List.getD_eq_getElem?_getD, List.getElem?_eq_none (by rw [hlen]; exact hj)]
  rfl

lemma seqFrom_eq_range (h : Hmap) :
    ∀ (fuel b : Nat),
      seqFrom h fuel b = ((List.range fuel).map (fun j => getBucket h (b + j))).flatten := by
  intro fuel
  induction fuel with
  | zero => intro b; rfl
  | succ f ih =>
    intro b
    have hf : ((fun j => getBucket h (b + j)) ∘ Nat.succ)
        = fun j => getBucket h (b + 1 + j) := by
      funext j
      show getBucket h (b + (j + 1)) = getBucket h (b + 1 + j)
      congr 1
      omega
    rw [List.range_succ_eq_map, List.map_cons, List.flatten_cons, List.map_map, hf,
      ← ih (b + 1)]
    rfl

lemma allNodesSeq_eq_seqFrom (h : Hmap) : allNodesSeq h = seqFrom h (h.mask + 1) 0 := by
  have hf : (fun j => getBucket h (0 + j)) = getBucket h := by
    funext j
    rw [Nat.zero_add]
  show ((List.range (h.mask + 1)).map (getBucket h)).flatten = seqFrom h (h.mask + 1) 0
  rw [seqFrom_eq_range, hf]

lemma restSeq_next (h : Hmap) (b : Nat) (hlen : (arrOf h).length = h.mask + 1)
    (hb : b ≤ h.mask) :
    seqFrom h (h.mask - b) (b + 1) = restSeq h (b + 1) 0 := by
  unfold restSeq
  rw [List.drop_zero]
  by_cases hbm : b = h.mask
  · rw [hbm, Nat.sub_self, show h.mask - (h.mask + 1) = 0 from by omega,
      getBucket_oob h (h.mask + 1) hlen (by omega)]
    rfl
  · rw [show h.mask - b = (h.mask - (b + 1)) + 1 from by omega]
    rfl

lemma restSeq_oob (h : Hmap) (b o : Nat) (hlen : (arrOf h).length = h.mask + 1)
    (hb : h.mask + 1 ≤ b) : restSeq h b o = [] := by
  unfold restSeq
  rw [getBucket_oob h b hlen hb, show h.mask - b = 0 from by omega]
  simp [seqFrom]

lemma atPosLoop_succ_oob (h : Hmap) (f b o : Nat) (hb : ¬ b ≤ h.mask) :
    atPosLoop h (f + 1) b o = (none, 0, 0) := by
  simp only [atPosLoop, if_neg hb]

lemma atPosLoop_succ_skip (h : Hmap) (f b o : Nat) (hb : b ≤ h.mask)
    (ho : (getBucket h b).length ≤ o) :
    atPosLoop h (f + 1) b o = atPosLoop h f (b + 1) 0 := by
  simp only [atPosLoop, if_pos hb, List.getElem?_eq_none ho]

lemma atPosLoop_succ_found (h : Hmap) (f b o : Nat) (hb : b ≤ h.mask) (nd : Node)
    (ho : (getBucket h b)[o]? = some nd) :
    atPosLoop h (f + 1) b o
      = if o + 1 < (getBucket h b).length
        then (some nd, (nd.hash &&& h.mask) % 2 ^ 32, (o + 1) % 2 ^ 32)
        else (some nd, ((nd.hash &&& h.mask) + 1) % 2 ^ 32, 0) := by
  simp only [atPosLoop, if_pos hb, ho]

lemma atPosLoop_none (h : Hmap) (hlen : (arrOf h).length = h.mask + 1) :
    ∀ (fuel b o : Nat), h.mask + 1 ≤ b + fuel → restSeq h b o = [] →
      atPosLoop h fuel b o = (none, 0, 0) := by
  intro fuel
  induction fuel with
  | zero => intro b o hfb hrest; rfl
  | succ f ih =>
    intro b o hfb hrest
    by_cases hb : b ≤ h.mask
    · unfold restSeq at hrest
      obtain ⟨h1, h2⟩ := List.append_eq_nil.mp hrest
      have hlenle : (getBucket h b).length ≤ o := by
        by_contra hlt
        push_neg at hlt
        rw [List.drop_eq_getElem_cons hlt] at h1
        exact absurd h1 (List.cons_ne_nil _ _)
      rw [atPosLoop_succ_skip h f b o hb hlenle]
      apply ih (b + 1) 0 (by omega)
      rw [← restSeq_next h b hlen hb]
      exact h2
    · exact atPosLoop_succ_oob h f b o hb

lemma at_position_none (h : Hmap) (hlen : (arrOf h).length = h.mask + 1)
    (b o : Nat) (hrest : restSeq h b o = []) :
    hmap_at_position h b o = (none, 0, 0) := by
  unfold hmap_at_position
  exact atPosLoop_none h hlen _ b o (by omega) hrest

lemma at_position_found (h : Hmap) (hlen : (arrOf h).length = h.mask + 1)
    (hplaced : ∀ i, i < h.mask + 1 → ∀ nd ∈ getBucket h i, nd.hash &&& h.mask = i)
    (hm32 : h.mask + 1 < 2 ^ 32) (hb32 : ∀ b, (getBucket h b).length < 2 ^ 32) :
    ∀ (fuel b o : Nat) (nd : Node) (L : List Node), h.mask + 1 ≤ b + fuel →
      restSeq h b o = nd :: L →
      ∃ b2 o2, atPosLoop h fuel b o = (some nd, b2, o2) ∧ restSeq h b2 o2 = L := by
  intro fuel
  induction fuel with
  | zero =>
    intro b o nd L hfb hrest
    rw [restSeq_oob h b o hlen (by omega)] at hrest
    exact absurd hrest (List.cons_ne_nil nd L).symm
  | succ f ih =>
    intro b o nd L hfb hrest
    by_cases hb : b ≤ h.mask
    · by_cases ho : o < (getBucket h b).length
      · have hsome : (getBucket h b)[o]? = some ((getBucket h b).get ⟨o, ho⟩) :=
          List.getElem?_eq_getElem ho
        have hcons : restSeq h b o
            = (getBucket h b).get ⟨o, ho⟩ :: restSeq h b (o + 1) := by
          unfold restSeq
          rw [List.drop_eq_getElem_cons ho]
          rfl
        rw [hcons] at hrest
        injection hrest with h1 h2
        have hmem : (getBucket h b).get ⟨o, ho⟩ ∈ getBucket h b :=
          List.getElem?_mem hsome
        have hplace : ((getBucket h b).get ⟨o, ho⟩).hash &&& h.mask = b :=
          hplaced b (by omega) _ hmem
        by_cases hnext : o + 1 < (getBucket h b).length
        · refine ⟨b, o + 1, ?_, by rw [h2]⟩
          rw [atPosLoop_succ_found h f b o hb _ hsome, if_pos hnext, hplace, h1,
            Nat.mod_eq_of_lt (show b < 2 ^ 32 by omega),
            Nat.mod_eq_of_lt (show o + 1 < 2 ^ 32 by
              have := hb32 b
              omega)]
        · refine ⟨b + 1, 0, ?_, ?_⟩
          · rw [atPosLoop_succ_found h f b o hb _ hsome, if_neg hnext, hplace, h1,
              Nat.mod_eq_of_lt (show b + 1 < 2 ^ 32 by omega)]
          · rw [← h2, ← restSeq_next h b hlen hb]
            unfold restSeq
            rw [List.drop_eq_nil_of_le (by omega)]
            rfl
      · push_neg at ho
        have hrest2 : restSeq h (b + 1) 0 = nd :: L := by
          unfold restSeq at hrest
          rw [List.drop_eq_nil_of_le ho, List.nil_append] at hrest
          rw [← restSeq_next h b hlen hb]
          exact hrest
        obtain ⟨b2, o2, hpos, hrest3⟩ := ih (b + 1) 0 nd L (by omega) hrest2
        refine ⟨b2, o2, ?_, hrest3⟩
        rw [atPosLoop_succ_skip h f b o hb ho]
        exact hpos
    · rw [restSeq_oob h b o hlen (by omega)] at hrest
      exact absurd hrest (List.cons_ne_nil nd L).symm

lemma at_position_found2 (h : Hmap) (hlen : (arrOf h).length = h.mask + 1)
    (hplaced : ∀ i, i < h.mask + 1 → ∀ nd ∈ getBucket h i, nd.hash &&& h.mask = i)
    (hm32 : h.mask + 1 < 2 ^ 32) (hb32 : ∀ b, (getBucket h b).length < 2 ^ 32)
    (b o : Nat) (nd : Node) (L : List Node) (hrest : restSeq h b o = nd :: L) :
    ∃ b2 o2, hmap_at_position h b o = (some nd, b2, o2) ∧ restSeq h b2 o2 = L := by
  unfold hmap_at_position
  exact at_position_found h hlen hplaced hm32 hb32 _ b o nd L (by omega) hrest

lemma runTraverse_spec (h : Hmap) (hlen : (arrOf h).length = h.mask + 1)
    (hplaced : ∀ i, i < h.mask + 1 → ∀ nd ∈ getBucket h i, nd.hash &&& h.mask = i)
    (hm32 : h.mask + 1 < 2 ^ 32) (hb32 : ∀ b, (getBucket h b).length < 2 ^ 32) :
    ∀ (L : List Node) (fuel b o : Nat), restSeq h b o = L → L.length < fuel →
      runTraverse h fuel b o = (L, 0, 0) := by
  intro L
  induction L with
  | nil =>
    intro fuel b o hrest hfuel
    obtain ⟨f, rfl⟩ : ∃ f, fuel = f + 1 := ⟨fuel - 1, by omega⟩
    have hat := at_position_none h hlen b o hrest
    simp only [runTraverse, hat]
  | cons nd L ih =>
    intro fuel b o hrest hfuel
    obtain ⟨f, rfl⟩ : ∃ f, fuel = f + 1 := ⟨fuel - 1, by omega⟩
    obtain ⟨b2, o2, hat, hrest2⟩ :=
      at_position_found2 h hlen hplaced hm32 hb32 b o nd L hrest
    have hrec := ih f b2 o2 hrest2 (by
      simp only [List.length_cons] at hfuel
      omega)
    simp only [runTraverse, hat, hrec]

/-- C4 (amended): on an unmodified well-formed table whose `mask + 1` and node
count fit the 32-bit cursor words, starting the Position Cursor at `(0, 0)` and
calling `hmap_at_position` repeatedly yields exactly the table's node
sequence — every node exactly once, in ascending bucket-index order and chain
order within each bucket — and the exhausting call returns `none` with the
cursor reset to `(0, 0)`. The visit order is a function of the table alone, so
repeated full traversals of the unmodified table agree. The 32-bit bounds are
forced by the counterexample `at_position_wrap_counterexample`: at
`mask = 2^32 - 1` the `uint32_t` cursor store wraps and the unrestricted claim
is false of the code. -/
theorem at_position_full_traversal (h : Hmap) (hwf : Wf h)
    (hm32 : h.mask + 1 < 2 ^ 32) (hc32 : totalCount h < 2 ^ 32) :
    runTraverse h (totalCount h + 1) 0 0 = (allNodesSeq h, 0, 0) := by
  have hlen := wf_len h hwf
  obtain ⟨-, -, -, -, hplaced⟩ := hwf
  have hb32 : ∀ b, (getBucket h b).length < 2 ^ 32 := by
    intro b
    have hle : (getBucket h b).length ≤ totalCount h := by
      by_cases hb : b < h.mask + 1
      · have hmm : getBucket h b ∈ (List.range (h.mask + 1)).map (getBucket h) :=
          List.mem_map.mpr ⟨b, List.mem_range.mpr hb, rfl⟩
        have hmm2 : (getBucket h b).length
            ∈ ((List.range (h.mask + 1)).map (getBucket h)).map List.length :=
          List.mem_map.mpr ⟨_, hmm, rfl⟩
        have hsum := List.single_le_sum
          (l := ((List.range (h.mask + 1)).map (getBucket h)).map List.length)
          (fun x _ => Nat.zero_le x) _ hmm2
        rw [totalCount, allNodesSeq, List.length_flatten]
        exact hsum
      · rw [getBucket_oob h b hlen (by omega)]
        exact Nat.zero_le _
    omega
  have hrest0 : restSeq h 0 0 = allNodesSeq h := by
    rw [allNodesSeq_eq_seqFrom]
    unfold restSeq
    rw [List.drop_zero, Nat.sub_zero]
    rfl
  exact runTraverse_spec h hlen hplaced hm32 hb32 (allNodesSeq h) (totalCount h + 1)
    0 0 hrest0 (by rw [totalCount]; omega)

theorem at_position_full_traversal_witness :
    (Wf sampleTable2 ∧ sampleTable2.mask + 1 < 2 ^ 32 ∧ totalCount sampleTable2 < 2 ^ 32) ∧
    runTraverse sampleTable2 (totalCount sampleTable2 + 1) 0 0
      = (allNodesSeq sampleTable2, 0, 0) :=
  ⟨⟨by unfold Wf; decide, by decide, by decide⟩,
    at_position_full_traversal sampleTable2 (by unfold Wf; decide) (by decide)
      (by decide)⟩

/-! ### C4 counterexample: the 32-bit cursor wrap at `mask = 2^32 - 1` -/

lemma flatten_replicate_nil {α : Type} (k : Nat) :
    (List.replicate k ([] : List α)).flatten = [] := by
  induction k with
  | zero => rfl
  | succ j ih => simp [List.replicate_succ, ih]

/-- Skipping a run of empty buckets: the outer loop of `hmap_at_position`
advances past `k` consecutive empty buckets. -/
lemma atPosLoop_skip_run (h : Hmap) :
    ∀ (k b f : Nat), (∀ j, b ≤ j → j < b + k → getBucket h j = []) →
      b + k ≤ h.mask + 1 →
      atPosLoop h (f + k) b 0 = atPosLoop h f (b + k) 0 := by
  intro k
  induction k with
  | zero => intro b f he hb; rfl
  | succ j ih =>
    intro b f he hb
    have hbb : b ≤ h.mask := by omega
    have h0 : getBucket h b = [] := he b (le_refl b) (by omega)
    show atPosLoop h (f + j + 1) b 0 = atPosLoop h f (b + (j + 1)) 0
    rw [atPosLoop_succ_skip h (f + j) b 0 hbb (by rw [h0]; exact Nat.le_refl 0),
      show b + (j + 1) = b + 1 + j from by omega]
    exact ih (b + 1) f (fun x hx1 hx2 => he x (by omega) (by omega)) (by omega)

lemma bigTable_empty_buckets :
    ∀ j, 0 ≤ j → j < 0 + (2 ^ 32 - 1) → getBucket bigTable j = [] := by
  intro j h0 hj
  rw [Nat.zero_add] at hj
  show (List.replicate (2 ^ 32 - 1) ([] : Bucket) ++ [[bigNode]]).getD j [] = []
  rw [List.getD_eq_getElem?_getD,
    List.getElem?_append_left (by rw [List.length_replicate]; exact hj),
    List.getElem?_replicate_of_lt hj]
  rfl

lemma bigTable_last_bucket : getBucket bigTable (2 ^ 32 - 1) = [bigNode] := by
  show (List.replicate (2 ^ 32 - 1) ([] : Bucket) ++ [[bigNode]]).getD (2 ^ 32 - 1) []
    = [bigNode]
  rw [List.getD_eq_getElem?_getD,
    List.getElem?_append_right (by rw [List.length_replicate]),
    List.length_replicate, Nat.sub_self]
  rfl

/-- The first call on `bigTable` at cursor `(0, 0)` returns the node of the
last bucket — and, because `(node->hash & mask) + 1 = 2^32` is stored into a
`uint32_t`, writes the wrapped cursor `(0, 0)` back instead of an exhausted
position. -/
lemma at_position_bigTable : hmap_at_position bigTable 0 0 = (some bigNode, 0, 0) := by
  have hfuel : bigTable.mask + 1 - 0 = 1 + (2 ^ 32 - 1) := by
    show 2 ^ 32 - 1 + 1 - 0 = 1 + (2 ^ 32 - 1)
    norm_num
  have hskip := atPosLoop_skip_run bigTable (2 ^ 32 - 1) 0 1 bigTable_empty_buckets
    (by show 0 + (2 ^ 32 - 1) ≤ 2 ^ 32 - 1 + 1; norm_num)
  calc hmap_at_position bigTable 0 0
      = atPosLoop bigTable (1 + (2 ^ 32 - 1)) 0 0 := by
        rw [hmap_at_position, hfuel]
    _ = atPosLoop bigTable 1 (0 + (2 ^ 32 - 1)) 0 := hskip
    _ = (some bigNode, 0, 0) := by
        rw [Nat.zero_add]
        have hsome : (getBucket bigTable (2 ^ 32 - 1))[0]? = some bigNode := by
          rw [bigTable_last_bucket]
          rfl
        have hfound := atPosLoop_succ_found bigTable 0 (2 ^ 32 - 1) 0
          (le_refl bigTable.mask) bigNode hsome
        rw [bigTable_last_bucket] at hfound
        simp only [Nat.zero_add] at hfound
        rw [hfound, if_neg (by simp)]
        have hh : bigNode.hash &&& bigTable.mask = 2 ^ 32 - 1 := Nat.and_self _
        rw [hh, show 2 ^ 32 - 1 + 1 = 2 ^ 32 from by norm_num, Nat.mod_self]

lemma allNodesSeq_bigTable : allNodesSeq bigTable = [bigNode] := by
  have hlen : (arrOf bigTable).length = bigTable.mask + 1 := by
    show (List.replicate (2 ^ 32 - 1) ([] : Bucket) ++ [[bigNode]]).length
      = 2 ^ 32 - 1 + 1
    rw [List.length_append, List.length_replicate]
    rfl
  rw [allNodesSeq_eq_flatten bigTable hlen]
  show (List.replicate (2 ^ 32 - 1) ([] : Bucket) ++ [[bigNode]]).flatten = [bigNode]
  rw [List.flatten_append, flatten_replicate_nil]
  rfl

lemma totalCount_bigTable : totalCount bigTable = 1 := by
  rw [totalCount, allNodesSeq_bigTable]
  rfl

lemma runTraverse_zero (h : Hmap) (b o : Nat) : runTraverse h 0 b o = ([], b, o) := rfl

lemma runTraverse_step_some (h : Hmap) (fuel b o b2 o2 : Nat) (nd : Node)
    (hat : hmap_at_position h b o = (some nd, b2, o2)) :
    runTraverse h (fuel + 1) b o
      = (nd :: (runTraverse h fuel b2 o2).1, (runTraverse h fuel b2 o2).2.1,
        (runTraverse h fuel b2 o2).2.2) := by
  simp only [runTraverse, hat]

/-- C4 counterexample: the claim as stated (with no size restriction) is false
of the code. `bigTable` is a well-formed table at `mask = 2^32 - 1` — reachable
through the program's own resize path — holding exactly one node, in the last
bucket. Visiting that node makes `hmap_at_position` store
`(node->hash & mask) + 1 = 2^32` into the `uint32_t` cursor word, which wraps
to `(0, 0)`: a full traversal from `(0, 0)` visits the single node twice (and
would revisit it forever) instead of visiting it exactly once and then
returning none with the cursor reset. -/
theorem at_position_wrap_counterexample :
    allNodesSeq bigTable = [bigNode] ∧
    runTraverse bigTable (totalCount bigTable + 1) 0 0 = ([bigNode, bigNode], 0, 0) ∧
    runTraverse bigTable (totalCount bigTable + 1) 0 0
      ≠ (allNodesSeq bigTable, 0, 0) := by
  have h1 := at_position_bigTable
  have hrun : runTraverse bigTable (1 + 1) 0 0 = ([bigNode, bigNode], 0, 0) := by
    rw [runTraverse_step_some bigTable 1 0 0 0 0 bigNode h1,
      runTraverse_step_some bigTable 0 0 0 0 0 bigNode h1,
      runTraverse_zero bigTable 0 0]
  refine ⟨allNodesSeq_bigTable, ?_, ?_⟩
  · rw [totalCount_bigTable]
    exact hrun
  · rw [totalCount_bigTable, hrun, allNodesSeq_bigTable]
    intro hcontra
    simp at hcontra
